import Mathlib

/-!
Verification development for `kineticsTools/summarizeModifications.py`
(GDelevoye/kineticsTools): a shallow embedding of the modification-summary
merge tool, with theorems about its behaviour.

The GFF record reader/writer (`pbcore.io.GffReader`, `Gff3Record`) is an
external collaborator of the tool, so input files are modelled at the
granularity at which the tool observes them: as lists of already-classified
lines (metadata line, parsed feature record, or a line the external parser
rejects).
-/

/-- A GFF3 feature record as the tool observes it (the fields of
`pbcore.io.Gff3Record` that `summarizeModifications.py` reads; remaining
columns and pre-existing attributes are carried opaquely in `attrs`). -/
structure Gff3Record where
  seqid : String
  start : Int
  «end» : Int
  strand : String
  type : String
  attrs : String
deriving DecidableEq, Repr

/-- One entry of the in-memory hit list built in `_mainLoop`:
`{"pos": x.start, "strand": x.strand, "seqid": x.seqid, "type": x.type}`. -/
structure Hit where
  pos : Int
  strand : String
  seqid : String
  type : String
deriving DecidableEq, Repr

/-- Compact constructor for concrete `Gff3Record` values
(seqid, start, end, strand, type, attrs). -/
def mkRec (seqid : String) (start stop : Int) (strand type attrs : String) :
    Gff3Record :=
  ⟨seqid, start, stop, strand, type, attrs⟩

/-- Compact constructor for concrete `Hit` values (pos, strand, seqid, type). -/
def mkHit (pos : Int) (strand seqid type : String) : Hit :=
  ⟨pos, strand, seqid, type⟩

/-- `self.knownModificationEvents = ["modified_base", "m6A", "m4C", "m5C"]`. -/
def knownModificationEvents : List String :=
  ["modified_base", "m6A", "m4C", "m5C"]

/-- The hit list loaded from the modifications file:
`[{..} for x in modReader if x.type in self.knownModificationEvents]`. -/
def loadHits (mods : List Gff3Record) : List Hit :=
  (mods.filter fun x => knownModificationEvents.contains x.type).map
    fun x => { pos := x.start, strand := x.strand, seqid := x.seqid, type := x.type }

/-- Assignment `d[k] = v` on a Python dict modelled as an insertion-ordered
association list: overwrite in place when the key exists, append otherwise. -/
def dictSet {α : Type} (d : List (String × α)) (k : String) (v : α) :
    List (String × α) :=
  if d.any fun p => decide (p.1 = k) then
    d.map fun p => if p.1 = k then (k, v) else p
  else d ++ [(k, v)]

/-- Lookup `d[k]` on the association-list dict. Every lookup the tool
performs is on a key of `knownModificationEvents`, which is always present;
`0` is a dummy for the impossible missing case. -/
def dget : List (String × Nat) → String → Nat
  | [], _ => 0
  | p :: d, k => if p.1 = k then p.2 else dget d k

/-- `itertools.groupby` over an already-extracted key sequence: for each
maximal run of equal consecutive keys, the pair `(key, run length)`.
`countModificationTypes` consumes of each group only its key and its
`len`, so this captures the grouping exactly. `runsGo k n t` scans `t`
while a run of key `k` of length `n` is open. -/
def runsGo (k : String) (n : Nat) : List String → List (String × Nat)
  | [] => [(k, n)]
  | x :: t => if x = k then runsGo k (n + 1) t else (k, n) :: runsGo x 1 t

/-- See `runsGo`: `runs` starts a run at the first key. -/
def runs : List String → List (String × Nat)
  | [] => []
  | k :: t => runsGo k 1 t

/-- The sort key of `sorted(mods, key=lambda x: x["type"])`. -/
def hitLe (a b : Hit) : Prop := a.type ≤ b.type

instance : DecidableRel hitLe := fun a b => inferInstanceAs (Decidable (a.type ≤ b.type))

instance : IsTotal Hit hitLe := ⟨fun a b => le_total a.type b.type⟩

instance : IsTrans Hit hitLe := ⟨fun _ _ _ h h2 => le_trans h h2⟩

/-- `sorted(mods, key=lambda x: x["type"])`. Python's `sorted` is a stable
sort; a stable sort's output is uniquely determined by the key order, so the
(stable) insertion sort computes exactly the same list. -/
def sortHitsByType (mods : List Hit) : List Hit :=
  List.insertionSort hitLe mods

/-- `ModificationSummary.countModificationTypes`: sort the hits by type,
group consecutive equal types, and over a dict seeded with a zero for every
known event type set each occurring type key to its group size. -/
def countModificationTypes (mods : List Hit) : List (String × Nat) :=
  let counts := knownModificationEvents.map fun x => (x, 0)
  (runs ((sortHitsByType mods).map Hit.type)).foldl
    (fun d p => dictSet d p.1 p.2) counts

/-- The selection of hits overlapping a region record:
`[h for h in hits if rec.start <= h['pos'] <= rec.end and rec.seqid == h['seqid']]`. -/
def intervalHits (hits : List Hit) (rec : Gff3Record) : List Hit :=
  hits.filter fun h => decide (rec.start ≤ h.pos ∧ h.pos ≤ rec.«end» ∧ rec.seqid = h.seqid)

/-- The serialized count attribute
`",".join([str(c[x]) for x in self.knownModificationEvents])`. -/
def countString (c : List (String × Nat)) : String :=
  String.intercalate "," (knownModificationEvents.map fun x => Nat.repr (dget c x))

/-- A line of the alignment-summary input as the main loop observes it: a
metadata line (first character `#`), a feature line the external GFF parser
accepts, or a feature line on which `Gff3Record.fromString` raises. -/
inductive SummaryLine where
  | meta (raw : String)
  | feature (rec : Gff3Record)
  | malformed (raw : String)
deriving DecidableEq, Repr

/-- A line printed to the output file: raw text (pass-through metadata and
the injected header block) or a feature record serialized together with its
two new count attributes. -/
inductive OutLine where
  | text (s : String)
  | record (rec : Gff3Record) (modsfwd modsrev : String)
deriving DecidableEq, Repr

/-- Whether an output line is raw text. -/
def isText : OutLine → Bool
  | OutLine.text _ => true
  | OutLine.record _ _ _ => false

/-- Whether an output line is a serialized feature record. -/
def isRecord : OutLine → Bool
  | OutLine.text _ => false
  | OutLine.record _ _ _ => true

/-- `headerString = ",".join(['"' + x + '"' for x in self.knownModificationEvents])`. -/
def headerString : String :=
  String.intercalate "," (knownModificationEvents.map fun x => "\"" ++ x ++ "\"")

/-- The six injected header fields; `cmdline` stands for
`" ".join(sys.argv)`. -/
def headers (cmdline : String) : List (String × String) :=
  [("source", "kineticModificationCaller 1.3.3"),
   ("source-commandline", cmdline),
   ("attribute-description",
    "modsfwd - count of detected DNA modifications on forward strand by modification event type"),
   ("attribute-description",
    "modsrev - count of detected DNA modifications on reverse strand by modification event type"),
   ("region-modsfwd", headerString),
   ("region-modsfwd", headerString)]

/-- The injected header lines as printed: `"##%s %s" % field`. -/
def headerLines (cmdline : String) : List String :=
  (headers cmdline).map fun p => "##" ++ p.1 ++ " " ++ p.2

/-- Python `line.strip()`: drop leading and trailing whitespace. (Stated on
the character list so that it evaluates inside the kernel; it agrees with
trimming whitespace at both ends of the string.) -/
def pyStrip (s : String) : String :=
  String.mk (((s.data.dropWhile Char.isWhitespace).reverse.dropWhile
    Char.isWhitespace).reverse)

/-- Mutable state of the main loop: the `inHeader` flag and `self.seqMap`. -/
structure LoopState where
  inHeader : Bool
  seqMap : List (String × String)
deriving DecidableEq, Repr

/-- State at the start of `_mainLoop`: `self.seqMap = {}`, `inHeader = True`. -/
def initState : LoopState :=
  { inHeader := true, seqMap := [] }

/-- Python `value.partition(' ')` restricted to the two parts the tool
keeps: the text before the first space and the text after it. -/
def partitionFirst (s : String) : String × String :=
  match s.splitOn " " with
  | [] => (s, "")
  | a :: rest => (a, String.intercalate " " rest)

/-- Processing of one metadata line: strip every `#`, split on single
spaces, and when the first field is `sequence-header` record the
internal/external name pair in `seqMap`. The printed pass-through
(`line.strip()`) is produced by the caller. -/
def metaUpdate (st : LoopState) (raw : String) : LoopState :=
  let splitFields := (raw.replace "#" "").splitOn " "
  let field := splitFields.headD ""
  let value := String.intercalate " " splitFields.tail
  if field = "sequence-header" then
    let p := partitionFirst (pyStrip value)
    { st with seqMap := dictSet st.seqMap p.1 p.2 }
  else st

/-- The annotated output line printed for a `region` record: the record with
`modsfwd`/`modsrev` set to the per-strand count strings of its overlapping
hits. -/
def annotateRegion (hits : List Hit) (rec : Gff3Record) : OutLine :=
  let ih := intervalHits hits rec
  let cFwd := countModificationTypes (ih.filter fun h => decide (h.strand = "+"))
  let cRev := countModificationTypes (ih.filter fun h => decide (h.strand = "-"))
  OutLine.record rec (countString cFwd) (countString cRev)

/-- The streaming merge of `_mainLoop` over the alignment-summary lines: the
output lines printed, paired with a flag that is `true` exactly when a
feature line failed to parse. The parse exception aborts the loop and
propagates; everything already printed stays in the output file, which is
what the first component records. -/
def processLines (hits : List Hit) (cmdline : String) :
    List SummaryLine → LoopState → List OutLine × Bool
  | [], _ => ([], false)
  | SummaryLine.meta raw :: rest, st =>
    let out := processLines hits cmdline rest (metaUpdate st raw)
    (OutLine.text (pyStrip raw) :: out.1, out.2)
  | SummaryLine.feature rec :: rest, st =>
    let pre := if st.inHeader then (headerLines cmdline).map OutLine.text else []
    let cur := if rec.type = "region" then [annotateRegion hits rec] else []
    let out := processLines hits cmdline rest { st with inHeader := false }
    (pre ++ cur ++ out.1, out.2)
  | SummaryLine.malformed _ :: _, st =>
    ((if st.inHeader then (headerLines cmdline).map OutLine.text else []), true)

/-! ### Dict lemmas -/

theorem dget_cons (p : String × Nat) (d : List (String × Nat)) (k : String) :
    dget (p :: d) k = if p.1 = k then p.2 else dget d k := rfl

theorem dictSet_cons_ne {p : String × Nat} {k : String}
    (d : List (String × Nat)) (v : Nat) (h : p.1 ≠ k) :
    dictSet (p :: d) k v = p :: dictSet d k v := by
  cases hd : d.any fun q => decide (q.1 = k) <;>
    simp [dictSet, hd, h]

theorem dget_map_overwrite {k k' : String} (hne : k' ≠ k)
    (d : List (String × Nat)) (v : Nat) :
    dget (d.map fun q => if q.1 = k then (k, v) else q) k' = dget d k' := by
  induction d with
  | nil => rfl
  | cons p d ih =>
    rw [List.map_cons]
    by_cases hpk : p.1 = k
    · rw [if_pos hpk, dget_cons, dget_cons, if_neg (Ne.symm hne),
        if_neg (fun h => hne (h.symm.trans hpk)), ih]
    · rw [if_neg hpk, dget_cons, dget_cons, ih]

theorem dget_dictSet_self (d : List (String × Nat)) (k : String) (v : Nat) :
    dget (dictSet d k v) k = v := by
  induction d with
  | nil => simp [dictSet, dget]
  | cons p d ih =>
    by_cases hpk : p.1 = k
    · have hany : ((p :: d).any fun q => decide (q.1 = k)) = true := by
        simp [hpk]
      rw [dictSet, if_pos hany, List.map_cons, if_pos hpk, dget_cons, if_pos rfl]
    · rw [dictSet_cons_ne d v hpk, dget_cons, if_neg hpk, ih]

theorem dget_dictSet_ne {k k' : String} (hne : k' ≠ k)
    (d : List (String × Nat)) (v : Nat) :
    dget (dictSet d k v) k' = dget d k' := by
  induction d with
  | nil => simp [dictSet, dget, Ne.symm hne]
  | cons p d ih =>
    by_cases hpk : p.1 = k
    · have hany : ((p :: d).any fun q => decide (q.1 = k)) = true := by
        simp [hpk]
      rw [dictSet, if_pos hany, List.map_cons, if_pos hpk, dget_cons,
        if_neg (Ne.symm hne), dget_cons, if_neg (fun h => hne (h.symm.trans hpk))]
      exact dget_map_overwrite hne d v
    · rw [dictSet_cons_ne d v hpk, dget_cons, dget_cons, ih]

theorem keys_dictSet_of_mem {d : List (String × Nat)} {k : String} (v : Nat)
    (h : k ∈ d.map Prod.fst) :
    (dictSet d k v).map Prod.fst = d.map Prod.fst := by
  have hany : (d.any fun p => decide (p.1 = k)) = true := by
    rcases List.mem_map.mp h with ⟨p, hp, hk⟩
    exact List.any_eq_true.mpr ⟨p, hp, by simp [hk]⟩
  rw [dictSet, if_pos hany, List.map_map]
  refine List.map_congr_left fun q hq => ?_
  by_cases hqk : q.1 = k
  · simp [hqk]
  · simp [hqk]

theorem dget_zeros (ks : List String) (t : String) :
    dget (ks.map fun k => (k, 0)) t = 0 := by
  induction ks with
  | nil => rfl
  | cons k ks ih =>
    rw [List.map_cons, dget_cons]
    by_cases h : k = t <;> simp [h, ih]

/-! ### Run-length grouping lemmas -/

theorem runsGo_eq (t : List String) :
    ∀ (k : String) (n : Nat),
      runsGo k n t
        = (k, (t.takeWhile fun x => decide (x = k)).length + n) ::
            runs (t.dropWhile fun x => decide (x = k)) := by
  induction t with
  | nil => intro k n; simp [runsGo, runs]
  | cons x t ih =>
    intro k n
    by_cases hxk : x = k
    · rw [runsGo, if_pos hxk, ih k (n + 1)]
      simp [List.takeWhile_cons, List.dropWhile_cons, hxk]
      omega
    · rw [runsGo, if_neg hxk]
      have : runsGo x 1 t = runs (x :: t) := rfl
      rw [this]
      simp [List.takeWhile_cons, List.dropWhile_cons, hxk]

theorem runs_cons_eq (t : List String) (k : String) :
    runs (k :: t)
      = (k, (t.takeWhile fun x => decide (x = k)).length + 1) ::
          runs (t.dropWhile fun x => decide (x = k)) := by
  rw [runs, runsGo_eq t k 1]

theorem mem_takeWhile_self {t : List String} {a x : String}
    (hx : x ∈ t.takeWhile fun y => decide (y = a)) : x = a := by
  simpa using List.mem_takeWhile_imp hx

theorem not_mem_dropWhile_self (t : List String) (a : String)
    (hp : t.Pairwise (· ≤ ·)) (ha : ∀ y ∈ t, a ≤ y) :
    a ∉ t.dropWhile fun x => decide (x = a) := by
  induction t with
  | nil => simp
  | cons b t ih =>
    rw [List.dropWhile_cons]
    by_cases hba : b = a
    · simp only [hba, decide_true_eq_true]
      exact fun hmem =>
        ih hp.of_cons (fun y hy => ha y (List.mem_cons_of_mem _ hy))
          (by simpa [hba] using hmem)
    · simp only [hba, decide_eq_true_eq, if_neg hba]
      intro hmem
      rcases List.mem_cons.mp hmem with hab | hat
      · exact hba hab.symm
      · have hble : b ≤ a := (List.pairwise_cons.mp hp).1 a hat
        have haleb : a ≤ b := ha b (List.mem_cons_self _ _)
        exact hba (le_antisymm hble haleb)

theorem dget_foldl_runs :
    ∀ (n : Nat) (l : List String), l.length ≤ n → l.Pairwise (· ≤ ·) →
    ∀ (d : List (String × Nat)) (k : String),
      dget ((runs l).foldl (fun d p => dictSet d p.1 p.2) d) k
        = if k ∈ l then l.count k else dget d k := by
  intro n
  induction n with
  | zero =>
    intro l hl _ d k
    have hnil : l = [] := List.eq_nil_of_length_eq_zero (Nat.le_zero.mp hl)
    subst hnil
    simp [runs]
  | succ n ih =>
    intro l hl hp d k
    cases l with
    | nil => simp [runs]
    | cons a t =>
      rw [runs_cons_eq, List.foldl_cons]
      have hsub : (t.dropWhile fun x => decide (x = a)).Sublist t :=
        List.dropWhile_sublist _
      have hlen : (t.dropWhile fun x => decide (x = a)).length ≤ n :=
        le_trans hsub.length_le (by simpa using Nat.succ_le_succ_iff.mp (by simpa using hl))
      have hpt : t.Pairwise (· ≤ ·) := hp.of_cons
      have hpdw : (t.dropWhile fun x => decide (x = a)).Pairwise (· ≤ ·) :=
        List.Pairwise.sublist hsub hpt
      have ha : ∀ y ∈ t, a ≤ y := (List.pairwise_cons.mp hp).1
      have hadw : a ∉ t.dropWhile fun x => decide (x = a) :=
        not_mem_dropWhile_self t a hpt ha
      have hsplit : (t.takeWhile fun x => decide (x = a))
          ++ (t.dropWhile fun x => decide (x = a)) = t :=
        List.takeWhile_append_dropWhile _ _
      rw [ih _ hlen hpdw]
      by_cases hka : k = a
      · subst hka
        rw [if_neg hadw, dget_dictSet_self, if_pos (List.mem_cons_self _ _)]
        have hcount_tw : (t.takeWhile fun x => decide (x = k)).count k
            = (t.takeWhile fun x => decide (x = k)).length :=
          List.count_eq_length.mpr fun b hb => (mem_takeWhile_self hb).symm
        have hcount_dw : (t.dropWhile fun x => decide (x = k)).count k = 0 :=
          List.count_eq_zero.mpr hadw
        have hct : t.count k = (t.takeWhile fun x => decide (x = k)).length := by
          conv_lhs => rw [← hsplit]
          rw [List.count_append, hcount_tw, hcount_dw]
          omega
        rw [List.count_cons_self, hct]
      · rw [dget_dictSet_ne hka]
        have hcount_tw : (t.takeWhile fun x => decide (x = a)).count k = 0 :=
          List.count_eq_zero.mpr fun hmem => hka (mem_takeWhile_self hmem)
        have hmem_iff : k ∈ a :: t ↔ k ∈ t.dropWhile fun x => decide (x = a) := by
          constructor
          · intro h
            rcases List.mem_cons.mp h with h | h
            · exact absurd h hka
            · rw [← hsplit] at h
              rcases List.mem_append.mp h with h | h
              · exact absurd (mem_takeWhile_self h) hka
              · exact h
          · intro h
            exact List.mem_cons_of_mem _ (hsub.subset h)
        have hcount_eq : (a :: t).count k
            = (t.dropWhile fun x => decide (x = a)).count k := by
          have hct : t.count k
              = (t.dropWhile fun x => decide (x = a)).count k := by
            conv_lhs => rw [← hsplit]
            rw [List.count_append, hcount_tw]
            omega
          rw [List.count_cons_of_ne hka, hct]
        by_cases hk : k ∈ t.dropWhile fun x => decide (x = a)
        · rw [if_pos hk, if_pos (hmem_iff.mpr hk), hcount_eq]
        · rw [if_neg hk, if_neg (fun h => hk (hmem_iff.mp h))]

/-! ### `countModificationTypes` characterization -/

theorem sortedTypes_pairwise (mods : List Hit) :
    ((sortHitsByType mods).map Hit.type).Pairwise (· ≤ ·) :=
  List.Pairwise.map Hit.type (fun _ _ hab => hab)
    (List.sorted_insertionSort hitLe mods)

theorem sortedTypes_perm (mods : List Hit) :
    ((sortHitsByType mods).map Hit.type).Perm (mods.map Hit.type) :=
  (List.perm_insertionSort hitLe mods).map Hit.type

/-- Central value lemma: `countModificationTypes` maps every type tag to its
number of occurrences among the input hits (for tags outside the seeded
known set this uses that absent keys read as their count, `0`). -/
theorem dget_countModificationTypes (mods : List Hit) (t : String) :
    dget (countModificationTypes mods) t = (mods.map Hit.type).count t := by
  unfold countModificationTypes
  have h := dget_foldl_runs ((sortHitsByType mods).map Hit.type).length
    ((sortHitsByType mods).map Hit.type) (le_refl _) (sortedTypes_pairwise mods)
    (knownModificationEvents.map fun x => (x, 0)) t
  rw [h]
  by_cases hmem : t ∈ (sortHitsByType mods).map Hit.type
  · rw [if_pos hmem, (sortedTypes_perm mods).count_eq]
  · rw [if_neg hmem, dget_zeros]
    symm
    exact List.count_eq_zero.mpr fun hc =>
      hmem ((sortedTypes_perm mods).mem_iff.mpr hc)

theorem runs_keys_mem :
    ∀ (n : Nat) (l : List String), l.length ≤ n → ∀ p ∈ runs l, p.1 ∈ l := by
  intro n
  induction n with
  | zero =>
    intro l hl p hp
    have hnil : l = [] := List.eq_nil_of_length_eq_zero (Nat.le_zero.mp hl)
    subst hnil
    simp [runs] at hp
  | succ n ih =>
    intro l hl p hp
    cases l with
    | nil => simp [runs] at hp
    | cons a t =>
      rw [runs_cons_eq] at hp
      rcases List.mem_cons.mp hp with hph | hpt
      · rw [hph]
        exact List.mem_cons_self _ _
      · have hsub : (t.dropWhile fun x => decide (x = a)).Sublist t :=
          List.dropWhile_sublist _
        have hlen : (t.dropWhile fun x => decide (x = a)).length ≤ n :=
          le_trans hsub.length_le
            (by simpa using Nat.succ_le_succ_iff.mp (by simpa using hl))
        exact List.mem_cons_of_mem _ (hsub.subset (ih _ hlen p hpt))

theorem keys_foldl_dictSet :
    ∀ (rs : List (String × Nat)) (d : List (String × Nat)),
      (∀ p ∈ rs, p.1 ∈ d.map Prod.fst) →
      (rs.foldl (fun d p => dictSet d p.1 p.2) d).map Prod.fst = d.map Prod.fst := by
  intro rs
  induction rs with
  | nil => intro d _; rfl
  | cons q rs ih =>
    intro d h
    rw [List.foldl_cons]
    have hq : q.1 ∈ d.map Prod.fst := h q (List.mem_cons_self _ _)
    have hkeys := keys_dictSet_of_mem q.2 hq
    rw [ih (dictSet d q.1 q.2) fun p hp => by
      rw [hkeys]; exact h p (List.mem_cons_of_mem _ hp), hkeys]

/-- Key lemma: when every hit carries a known type tag, the dict keys are
exactly the four known event types, in their fixed order. -/
theorem countModificationTypes_keys (mods : List Hit)
    (h : ∀ x ∈ mods, x.type ∈ knownModificationEvents) :
    (countModificationTypes mods).map Prod.fst = knownModificationEvents := by
  unfold countModificationTypes
  have hkeys0 : ((knownModificationEvents.map fun x => (x, 0)).map Prod.fst)
      = knownModificationEvents := rfl
  rw [keys_foldl_dictSet _ _ fun p hp => by
    rw [hkeys0]
    have hpl := runs_keys_mem ((sortHitsByType mods).map Hit.type).length
      ((sortHitsByType mods).map Hit.type) (le_refl _) p hp
    have hpm : p.1 ∈ mods.map Hit.type := (sortedTypes_perm mods).mem_iff.mp hpl
    rcases List.mem_map.mp hpm with ⟨x, hx, hxp⟩
    exact hxp ▸ h x hx, hkeys0]

theorem alist_eq_keys_map :
    ∀ (d : List (String × Nat)), (d.map Prod.fst).Nodup →
      d = (d.map Prod.fst).map fun k => (k, dget d k) := by
  intro d
  induction d with
  | nil => intro _; rfl
  | cons p d ih =>
    intro hnd
    rw [List.map_cons, List.map_cons]
    rw [List.map_cons] at hnd
    rcases List.nodup_cons.mp hnd with ⟨hpnot, hnd2⟩
    have htail : (d.map Prod.fst).map (fun k => (k, dget (p :: d) k))
        = (d.map Prod.fst).map fun k => (k, dget d k) := by
      refine List.map_congr_left fun k hk => ?_
      have hne : p.1 ≠ k := fun hcon => hpnot (hcon ▸ hk)
      rw [dget_cons, if_neg hne]
    rw [htail, ← ih hnd2, dget_cons, if_pos rfl]

/-- Canonical form: with only known type tags in the input, the dict built by
`countModificationTypes` is, entry for entry, the known event list paired
with occurrence counts. -/
theorem countModificationTypes_canonical (mods : List Hit)
    (h : ∀ x ∈ mods, x.type ∈ knownModificationEvents) :
    countModificationTypes mods
      = knownModificationEvents.map fun t => (t, (mods.map Hit.type).count t) := by
  have hkeys := countModificationTypes_keys mods h
  have hnd : ((countModificationTypes mods).map Prod.fst).Nodup := by
    rw [hkeys]; decide
  have hcan := alist_eq_keys_map (countModificationTypes mods) hnd
  rw [hcan, hkeys]
  exact List.map_congr_left fun t _ => by rw [dget_countModificationTypes]

/-! ### Main-loop lemmas -/

theorem metaUpdate_inHeader (st : LoopState) (raw : String) :
    (metaUpdate st raw).inHeader = st.inHeader := by
  unfold metaUpdate
  dsimp only
  split <;> rfl

theorem foldl_metaUpdate_inHeader (ms : List String) (st : LoopState) :
    (ms.foldl metaUpdate st).inHeader = st.inHeader := by
  induction ms generalizing st with
  | nil => rfl
  | cons m ms ih => rw [List.foldl_cons, ih, metaUpdate_inHeader]

theorem processLines_meta_block (hits : List Hit) (cmdline : String)
    (ms : List String) (rest : List SummaryLine) (st : LoopState) :
    processLines hits cmdline (ms.map SummaryLine.meta ++ rest) st
      = ((ms.map fun s => OutLine.text (pyStrip s))
           ++ (processLines hits cmdline rest (ms.foldl metaUpdate st)).1,
         (processLines hits cmdline rest (ms.foldl metaUpdate st)).2) := by
  induction ms generalizing st with
  | nil => simp
  | cons m ms ih =>
    simp only [List.map_cons, List.cons_append, processLines, List.foldl_cons,
      List.append_eq]
    rw [ih (metaUpdate st m)]

theorem processLines_features (hits : List Hit) (cmdline : String) :
    ∀ (fs : List Gff3Record) (st : LoopState), st.inHeader = false →
      processLines hits cmdline (fs.map SummaryLine.feature) st
        = ((fs.filter fun r => decide (r.type = "region")).map (annotateRegion hits),
           false) := by
  intro fs
  induction fs with
  | nil => intro st _; rfl
  | cons f fs ih =>
    intro st h
    simp only [List.map_cons, processLines, h]
    rw [ih { st with inHeader := false } rfl]
    by_cases hf : f.type = "region"
    · simp [hf, List.filter_cons]
    · simp [hf, List.filter_cons]

theorem record_mem_processLines (hits : List Hit) (cmdline : String) :
    ∀ (lines : List SummaryLine) (st : LoopState) (r : Gff3Record) (mf mr : String),
      OutLine.record r mf mr ∈ (processLines hits cmdline lines st).1 →
      r.type = "region" ∧ OutLine.record r mf mr = annotateRegion hits r := by
  intro lines
  induction lines with
  | nil => intro st r mf mr h; simp [processLines] at h
  | cons ln rest ih =>
    intro st r mf mr h
    cases ln with
    | meta raw =>
      simp only [processLines] at h
      rcases List.mem_cons.mp h with hh | ht
      · exact absurd hh (by simp)
      · exact ih _ r mf mr ht
    | feature rec =>
      simp only [processLines] at h
      rcases List.mem_append.mp h with h1 | h2
      · rcases List.mem_append.mp h1 with hp | hc
        · cases hih : st.inHeader with
          | true =>
            rw [hih, if_pos rfl] at hp
            rcases List.mem_map.mp hp with ⟨s, _, hs⟩
            exact absurd hs (by simp)
          | false =>
            rw [hih] at hp
            simp at hp
        · by_cases hreg : rec.type = "region"
          · rw [if_pos hreg] at hc
            have heq := List.mem_singleton.mp hc
            have hrec : r = rec := by
              have heq2 := heq
              unfold annotateRegion at heq2
              injection heq2 with h1 h2 h3
            subst hrec
            exact ⟨hreg, heq⟩
          · rw [if_neg hreg] at hc
            exact absurd hc (List.not_mem_nil _)
      · exact ih _ r mf mr h2
    | malformed raw =>
      simp only [processLines] at h
      cases hih : st.inHeader with
      | true =>
        rw [hih, if_pos rfl] at h
        rcases List.mem_map.mp h with ⟨s, _, hs⟩
        exact absurd hs (by simp)
      | false =>
        rw [hih] at h
        simp at h

/-! ### Counting helpers -/

theorem sum_indicator_zero {a : String} :
    ∀ (ks : List String), a ∉ ks →
      (ks.map fun k => if a = k then 1 else 0).sum = 0 := by
  intro ks
  induction ks with
  | nil => intro _; rfl
  | cons k ks ih =>
    intro h
    have hak : a ≠ k := fun hc => h (hc ▸ List.mem_cons_self _ _)
    simp only [List.map_cons, List.sum_cons, if_neg hak]
    rw [ih fun hc => h (List.mem_cons_of_mem _ hc)]

theorem sum_indicator_one {a : String} :
    ∀ (ks : List String), ks.Nodup → a ∈ ks →
      (ks.map fun k => if a = k then 1 else 0).sum = 1 := by
  intro ks
  induction ks with
  | nil => intro _ h; cases h
  | cons k ks ih =>
    intro hnd hmem
    rcases List.nodup_cons.mp hnd with ⟨hknot, hnd2⟩
    rcases List.mem_cons.mp hmem with hak | hks
    · subst hak
      simp only [List.map_cons, List.sum_cons, if_pos rfl]
      rw [sum_indicator_zero ks hknot]
      simp
    · have hak : a ≠ k := fun hc => hknot (hc ▸ hks)
      simp only [List.map_cons, List.sum_cons, if_neg hak]
      rw [ih hnd2 hks]

theorem sum_map_split (ks : List String) (f g : String → Nat) :
    (ks.map fun k => f k + g k).sum = (ks.map f).sum + (ks.map g).sum := by
  induction ks with
  | nil => rfl
  | cons k ks ih =>
    simp only [List.map_cons, List.sum_cons, ih]
    omega

theorem sum_counts_eq_length (ks : List String) (hnd : ks.Nodup) :
    ∀ (ts : List String), (∀ x ∈ ts, x ∈ ks) →
      (ks.map fun k => ts.count k).sum = ts.length := by
  intro ts
  induction ts with
  | nil => intro _; simp
  | cons a ts ih =>
    intro h
    have ha : a ∈ ks := h a (List.mem_cons_self _ _)
    have hmap : (ks.map fun k => (a :: ts).count k)
        = ks.map fun k => ts.count k + if a = k then 1 else 0 := by
      refine List.map_congr_left fun k _ => ?_
      rw [List.count_cons]
      by_cases hak : a = k
      · simp [hak]
      · simp [hak, Ne.symm hak]
    rw [hmap, sum_map_split, ih fun x hx => h x (List.mem_cons_of_mem _ hx),
      sum_indicator_one ks hnd ha]
    simp

theorem length_filter_strand_split :
    ∀ (l : List Hit), (∀ h ∈ l, h.strand = "+" ∨ h.strand = "-") →
      (l.filter fun h => decide (h.strand = "+")).length
        + (l.filter fun h => decide (h.strand = "-")).length = l.length := by
  intro l
  induction l with
  | nil => intro _; rfl
  | cons x l ih =>
    intro h
    have hrest := ih fun y hy => h y (List.mem_cons_of_mem _ hy)
    have hpm : ¬("+" : String) = "-" := by decide
    rcases h x (List.mem_cons_self _ _) with hx | hx
    · have h1 : ((x :: l).filter fun h => decide (h.strand = "+"))
          = x :: l.filter fun h => decide (h.strand = "+") := by
        simp [List.filter_cons, hx]
      have h2 : ((x :: l).filter fun h => decide (h.strand = "-"))
          = l.filter fun h => decide (h.strand = "-") := by
        simp [List.filter_cons, hx, hpm]
      rw [h1, h2]
      simp only [List.length_cons]
      omega
    · have h1 : ((x :: l).filter fun h => decide (h.strand = "+"))
          = l.filter fun h => decide (h.strand = "+") := by
        have hmp : ¬("-" : String) = "+" := by decide
        simp [List.filter_cons, hx, hmp]
      have h2 : ((x :: l).filter fun h => decide (h.strand = "-"))
          = x :: l.filter fun h => decide (h.strand = "-") := by
        simp [List.filter_cons, hx]
      rw [h1, h2]
      simp only [List.length_cons]
      omega

/-! ### Loader lemmas -/

theorem loadHits_types_known (mods : List Gff3Record) :
    ∀ h ∈ loadHits mods, h.type ∈ knownModificationEvents := by
  intro h hmem
  unfold loadHits at hmem
  rcases List.mem_map.mp hmem with ⟨x, hx, hxh⟩
  have hc := (List.mem_filter.mp hx).2
  rw [← hxh]
  simpa using hc

/-! ### Claim theorems -/

/-- C4: a loaded hit is selected as overlapping a region record if and only
if it is among the loaded hits, its sequence identifier equals the record's
and its position lies in the record's inclusive `[start, end]` interval; a
position equal to either boundary therefore counts as inside, and a hit
whose sequence identifier differs from a region's is never selected for it. -/
theorem c4_overlap_closed_interval (hits : List Hit) (rec : Gff3Record) (h : Hit) :
    h ∈ intervalHits hits rec
      ↔ h ∈ hits ∧ rec.seqid = h.seqid ∧ rec.start ≤ h.pos ∧ h.pos ≤ rec.«end» := by
  unfold intervalHits
  simp only [List.mem_filter, decide_eq_true_eq]
  tauto

theorem contains_known_iff (t : String) :
    knownModificationEvents.contains t = true
      ↔ (t = "modified_base" ∨ t = "m6A" ∨ t = "m4C" ∨ t = "m5C") := by
  simp [knownModificationEvents]

/-- C6: the Modification Loader keeps exactly the records whose type tag is
one of the four known tags (`modified_base`, `m6A`, `m4C`, `m5C`), in input
order, and every loaded hit carries one of those four tags. -/
theorem c6_loader_known_types (mods : List Gff3Record) :
    loadHits mods
      = (mods.filter fun x =>
          decide (x.type = "modified_base" ∨ x.type = "m6A" ∨ x.type = "m4C"
            ∨ x.type = "m5C")).map
          (fun x => { pos := x.start, strand := x.strand, seqid := x.seqid,
                      type := x.type })
    ∧ ∀ h ∈ loadHits mods,
        h.type = "modified_base" ∨ h.type = "m6A" ∨ h.type = "m4C"
          ∨ h.type = "m5C" := by
  constructor
  · unfold loadHits
    congr 1
    refine List.filter_congr fun x _ => ?_
    rcases hx : knownModificationEvents.contains x.type with hf | ht
    · symm
      rw [decide_eq_false_iff_not]
      intro hdis
      rw [← contains_known_iff x.type] at hdis
      rw [hx] at hdis
      cases hdis
    · symm
      rw [decide_eq_true_eq]
      exact (contains_known_iff x.type).mp hx
  · intro h hmem
    have := loadHits_types_known mods h hmem
    simpa [knownModificationEvents] using this

/-- C8: a malformed feature line aborts the run with the error flag set, and
the output produced up to the abort point is exactly the output of the run
truncated at the malformed line — lines after it are never processed, and
nothing already printed is retracted. -/
theorem c8_malformed_aborts (hits : List Hit) (cmdline : String)
    (xs rest : List SummaryLine) (raw : String) (st : LoopState) :
    processLines hits cmdline (xs ++ SummaryLine.malformed raw :: rest) st
      = processLines hits cmdline (xs ++ [SummaryLine.malformed raw]) st
    ∧ (processLines hits cmdline (xs ++ SummaryLine.malformed raw :: rest) st).2
        = true := by
  induction xs generalizing st with
  | nil => exact ⟨rfl, rfl⟩
  | cons ln xs ih =>
    cases ln with
    | meta raw2 =>
      simp only [List.cons_append, processLines, List.append_eq]
      exact ⟨by rw [(ih (metaUpdate st raw2)).1],
             by simpa using (ih (metaUpdate st raw2)).2⟩
    | feature rec =>
      simp only [List.cons_append, processLines, List.append_eq]
      exact ⟨by rw [(ih { st with inHeader := false }).1],
             by simpa using (ih { st with inHeader := false }).2⟩
    | malformed raw2 =>
      exact ⟨rfl, rfl⟩

/-- C9: on an input consisting only of metadata lines (or on an empty
input), the run never reaches a feature line, so the injected header block
is never written: the output is exactly the stripped pass-through of the
metadata lines. -/
theorem c9_no_feature_no_block (hits : List Hit) (cmdline : String)
    (ms : List String) :
    processLines hits cmdline (ms.map SummaryLine.meta) initState
      = (ms.map fun s => OutLine.text (pyStrip s), false) := by
  have h := processLines_meta_block hits cmdline ms [] initState
  simpa [processLines] using h

/-- C1 counterexample: a run over an alignment summary whose single feature
line has the non-region type `insertion` produces no feature record in the
output at all — the parsed line is not written through, contradicting the
claim that non-region feature lines appear in the output. -/
theorem c1_counterexample :
    ((processLines [] "cmd"
        [SummaryLine.feature (mkRec "chr1" 1 10 "." "insertion" "")]
        initState).1.any isRecord) = false := by
  decide

/-- C1 (amended): a feature line whose type is not `region` is parsed but
produces no output line — it is silently dropped (only the pending header
block, if any, is flushed before it), rather than written through. -/
theorem c1_nonregion_dropped (hits : List Hit) (cmdline : String)
    (rec : Gff3Record) (rest : List SummaryLine) (st : LoopState)
    (h : rec.type ≠ "region") :
    processLines hits cmdline (SummaryLine.feature rec :: rest) st
      = ((if st.inHeader then (headerLines cmdline).map OutLine.text else [])
          ++ (processLines hits cmdline rest { st with inHeader := false }).1,
         (processLines hits cmdline rest { st with inHeader := false }).2) := by
  simp only [processLines, if_neg h]
  simp

theorem c1_nonregion_dropped_witness :
    (mkRec "s" 1 2 "+" "insertion" "").type ≠ "region"
    ∧ processLines [] "c" [SummaryLine.feature (mkRec "s" 1 2 "+" "insertion" "")]
        initState
      = ((if initState.inHeader then (headerLines "c").map OutLine.text else [])
          ++ (processLines [] "c" [] { initState with inHeader := false }).1,
         (processLines [] "c" [] { initState with inHeader := false }).2) :=
  ⟨by decide,
   c1_nonregion_dropped [] "c" (mkRec "s" 1 2 "+" "insertion" "") [] initState
     (by decide)⟩

/-- C2 counterexample: on an input whose lines are all metadata (no feature
line), none of the six injected header lines — here witnessed by the
`source` line — is ever written, so the block does not appear exactly once
for every input. -/
theorem c2_counterexample :
    OutLine.text "##source kineticModificationCaller 1.3.3"
      ∉ (processLines [] "cmd" [SummaryLine.meta "##foo bar"] initState).1 := by
  decide

/-- C2 (amended): on any input made of metadata lines followed by at least
one feature line (no malformed line, all metadata before the first feature),
every metadata line appears stripped in the output in original order, the
six injected header lines appear exactly once, immediately after the last
metadata line and before the first feature output, and everything following
the block is feature records only (so no further copy of the block exists). -/
theorem c2_metadata_and_block (hits : List Hit) (cmdline : String)
    (ms : List String) (f : Gff3Record) (fs : List Gff3Record) :
    processLines hits cmdline
        (ms.map SummaryLine.meta ++ (f :: fs).map SummaryLine.feature) initState
      = (ms.map (fun s => OutLine.text (pyStrip s))
          ++ (headerLines cmdline).map OutLine.text
          ++ ((f :: fs).filter fun r => decide (r.type = "region")).map
              (annotateRegion hits),
         false)
    ∧ ∀ l ∈ ((f :: fs).filter fun r => decide (r.type = "region")).map
          (annotateRegion hits), isText l = false := by
  constructor
  · rw [processLines_meta_block]
    have hin : (ms.foldl metaUpdate initState).inHeader = true := by
      rw [foldl_metaUpdate_inHeader]; rfl
    simp only [List.map_cons, processLines, hin, if_pos rfl]
    rw [processLines_features hits cmdline fs
      { ms.foldl metaUpdate initState with inHeader := false } rfl]
    by_cases hf : f.type = "region"
    · simp [hf, List.filter_cons, List.append_assoc]
    · simp [hf, List.filter_cons, List.append_assoc]
  · intro l hl
    rcases List.mem_map.mp hl with ⟨r, _, hr⟩
    rw [← hr]
    rfl

/-- C3: every feature record written to the output is a region record whose
`modsfwd` and `modsrev` values are the comma-join of exactly one
non-negative integer token per known event type, in the fixed order of
`knownModificationEvents` (4 types); a type with no overlapping hit on the
respective strand contributes the count `0` rather than being omitted. -/
theorem c3_count_attributes (hits : List Hit) (cmdline : String)
    (lines : List SummaryLine) (st : LoopState) (r : Gff3Record) (mf mr : String)
    (hmem : OutLine.record r mf mr ∈ (processLines hits cmdline lines st).1) :
    r.type = "region"
    ∧ knownModificationEvents.length = 4
    ∧ mf = String.intercalate ","
        ((knownModificationEvents.map fun t =>
          (((intervalHits hits r).filter fun h => decide (h.strand = "+")).map
            Hit.type).count t).map Nat.repr)
    ∧ mr = String.intercalate ","
        ((knownModificationEvents.map fun t =>
          (((intervalHits hits r).filter fun h => decide (h.strand = "-")).map
            Hit.type).count t).map Nat.repr)
    ∧ ∀ t ∈ knownModificationEvents,
        (∀ h ∈ intervalHits hits r, h.strand = "+" → h.type ≠ t) →
        (((intervalHits hits r).filter fun h => decide (h.strand = "+")).map
          Hit.type).count t = 0 := by
  obtain ⟨hreg, heq⟩ := record_mem_processLines hits cmdline lines st r mf mr hmem
  have heq2 := heq
  unfold annotateRegion at heq2
  injection heq2 with h1 h2 h3
  refine ⟨hreg, rfl, ?_, ?_, ?_⟩
  · rw [h2]
    unfold countString
    congr 1
    rw [List.map_map]
    refine List.map_congr_left fun t _ => ?_
    simp only [Function.comp]
    rw [dget_countModificationTypes]
  · rw [h3]
    unfold countString
    congr 1
    rw [List.map_map]
    refine List.map_congr_left fun t _ => ?_
    simp only [Function.comp]
    rw [dget_countModificationTypes]
  · intro t _ hnone
    refine List.count_eq_zero.mpr fun hc => ?_
    rcases List.mem_map.mp hc with ⟨h0, hh0, hty⟩
    have hf := List.mem_filter.mp hh0
    exact hnone h0 hf.1 (of_decide_eq_true hf.2) hty

theorem c3_count_attributes_witness :
    OutLine.record (mkRec "chr1" 50 150 "." "region" "") "0,1,0,0" "0,0,0,0"
      ∈ (processLines [mkHit 100 "+" "chr1" "m6A"] "c"
          [SummaryLine.feature (mkRec "chr1" 50 150 "." "region" "")]
          initState).1
    ∧ ((mkRec "chr1" 50 150 "." "region" "").type = "region"
      ∧ knownModificationEvents.length = 4
      ∧ "0,1,0,0" = String.intercalate ","
          ((knownModificationEvents.map fun t =>
            (((intervalHits [mkHit 100 "+" "chr1" "m6A"]
                (mkRec "chr1" 50 150 "." "region" "")).filter fun h =>
              decide (h.strand = "+")).map Hit.type).count t).map Nat.repr)
      ∧ "0,0,0,0" = String.intercalate ","
          ((knownModificationEvents.map fun t =>
            (((intervalHits [mkHit 100 "+" "chr1" "m6A"]
                (mkRec "chr1" 50 150 "." "region" "")).filter fun h =>
              decide (h.strand = "-")).map Hit.type).count t).map Nat.repr)
      ∧ ∀ t ∈ knownModificationEvents,
          (∀ h ∈ intervalHits [mkHit 100 "+" "chr1" "m6A"]
              (mkRec "chr1" 50 150 "." "region" ""),
            h.strand = "+" → h.type ≠ t) →
          (((intervalHits [mkHit 100 "+" "chr1" "m6A"]
              (mkRec "chr1" 50 150 "." "region" "")).filter fun h =>
            decide (h.strand = "+")).map Hit.type).count t = 0) :=
  ⟨by decide,
   c3_count_attributes [mkHit 100 "+" "chr1" "m6A"] "c"
     [SummaryLine.feature (mkRec "chr1" 50 150 "." "region" "")] initState
     (mkRec "chr1" 50 150 "." "region" "") "0,1,0,0" "0,0,0,0" (by decide)⟩

/-- C5 counterexample: on a hit list containing a type tag outside the four
known event types, the dict's key set is not the four known types — Python's
`counts[k] = len(..)` inserts the unknown key — refuting the claim for
arbitrary input lists. -/
theorem c5_counterexample :
    ¬ ((countModificationTypes [mkHit 1 "+" "s" "unknown_kind"]).map Prod.fst
        = ["modified_base", "m6A", "m4C", "m5C"]) := by
  decide

/-- C5 (amended): for every hit list whose type tags all lie in the four
known event types, the Count Aggregator returns a dict whose key list is
exactly `knownModificationEvents` (unseen types mapped to `0`), and any
permutation of the input yields the identical dict. -/
theorem c5_aggregator (l l2 : List Hit)
    (hknown : ∀ h ∈ l, h.type ∈ knownModificationEvents)
    (hperm : l2.Perm l) :
    (countModificationTypes l).map Prod.fst = knownModificationEvents
    ∧ (∀ t ∈ knownModificationEvents, (∀ h ∈ l, h.type ≠ t) →
        dget (countModificationTypes l) t = 0)
    ∧ countModificationTypes l2 = countModificationTypes l := by
  refine ⟨countModificationTypes_keys l hknown, ?_, ?_⟩
  · intro t _ hnone
    rw [dget_countModificationTypes]
    refine List.count_eq_zero.mpr fun hc => ?_
    rcases List.mem_map.mp hc with ⟨h0, hh0, hty⟩
    exact hnone h0 hh0 hty
  · have hknown2 : ∀ h ∈ l2, h.type ∈ knownModificationEvents :=
      fun h hm => hknown h (hperm.subset hm)
    rw [countModificationTypes_canonical l hknown,
      countModificationTypes_canonical l2 hknown2]
    refine List.map_congr_left fun t _ => ?_
    rw [(hperm.map Hit.type).count_eq]

theorem c5_aggregator_witness :
    (∀ h ∈ [mkHit 1 "+" "s" "m6A", mkHit 2 "-" "s" "m4C"],
        Hit.type h ∈ knownModificationEvents)
    ∧ ([mkHit 2 "-" "s" "m4C", mkHit 1 "+" "s" "m6A"] : List Hit).Perm
        [mkHit 1 "+" "s" "m6A", mkHit 2 "-" "s" "m4C"]
    ∧ ((countModificationTypes
          [mkHit 1 "+" "s" "m6A", mkHit 2 "-" "s" "m4C"]).map Prod.fst
        = knownModificationEvents
      ∧ (∀ t ∈ knownModificationEvents,
          (∀ h ∈ [mkHit 1 "+" "s" "m6A", mkHit 2 "-" "s" "m4C"],
            Hit.type h ≠ t) →
          dget (countModificationTypes
            [mkHit 1 "+" "s" "m6A", mkHit 2 "-" "s" "m4C"]) t = 0)
      ∧ countModificationTypes [mkHit 2 "-" "s" "m4C", mkHit 1 "+" "s" "m6A"]
          = countModificationTypes
              [mkHit 1 "+" "s" "m6A", mkHit 2 "-" "s" "m4C"]) :=
  ⟨by decide, by decide, c5_aggregator _ _ (by decide) (by decide)⟩

/-- C7: the end-to-end example — one `m6A` hit on `chr1`, strand `+`,
position 100, one region record for `chr1` spanning `[50, 150]` — produces
the annotated region record with `modsfwd = "0,1,0,0"` and
`modsrev = "0,0,0,0"`, after the injected header block. -/
theorem c7_end_to_end :
    processLines (loadHits [mkRec "chr1" 100 100 "+" "m6A" ""]) "cmd"
        [SummaryLine.feature (mkRec "chr1" 50 150 "." "region" "cov=10")]
        initState
      = ((headerLines "cmd").map OutLine.text
          ++ [OutLine.record (mkRec "chr1" 50 150 "." "region" "cov=10")
              "0,1,0,0" "0,0,0,0"],
         false) := by
  decide

/-- C10: a hit enters the forward selection of a region exactly when it
overlaps and its strand is `"+"`, the reverse selection exactly when it
overlaps and its strand is `"-"` (any other strand symbol is counted in
neither), and — provided every loaded hit's strand is `"+"` or `"-"` — the
sum of the eight emitted count tokens of a region equals the number of
loaded hits overlapping it. -/
theorem c10_strand_counting (mods : List Gff3Record) (rec : Gff3Record)
    (hstrand : ∀ h ∈ loadHits mods, h.strand = "+" ∨ h.strand = "-") :
    (∀ h : Hit,
        h ∈ (intervalHits (loadHits mods) rec).filter
          (fun h => decide (h.strand = "+"))
          ↔ h ∈ intervalHits (loadHits mods) rec ∧ h.strand = "+")
    ∧ (∀ h : Hit,
        h ∈ (intervalHits (loadHits mods) rec).filter
          (fun h => decide (h.strand = "-"))
          ↔ h ∈ intervalHits (loadHits mods) rec ∧ h.strand = "-")
    ∧ (knownModificationEvents.map fun t =>
          dget (countModificationTypes ((intervalHits (loadHits mods) rec).filter
            fun h => decide (h.strand = "+"))) t).sum
        + (knownModificationEvents.map fun t =>
          dget (countModificationTypes ((intervalHits (loadHits mods) rec).filter
            fun h => decide (h.strand = "-"))) t).sum
        = (intervalHits (loadHits mods) rec).length := by
  have hsub : ∀ h : Hit, h ∈ intervalHits (loadHits mods) rec →
      h ∈ loadHits mods := by
    intro h hm
    unfold intervalHits at hm
    exact (List.mem_filter.mp hm).1
  refine ⟨?_, ?_, ?_⟩
  · intro h
    simp [List.mem_filter]
  · intro h
    simp [List.mem_filter]
  · have hnd : knownModificationEvents.Nodup := by decide
    have htypes : ∀ (p : Hit → Bool)
        (x : String), x ∈ ((intervalHits (loadHits mods) rec).filter p).map
          Hit.type → x ∈ knownModificationEvents := by
      intro p x hx
      rcases List.mem_map.mp hx with ⟨h0, hh0, hxty⟩
      have h1 : h0 ∈ intervalHits (loadHits mods) rec :=
        (List.mem_filter.mp hh0).1
      exact hxty ▸ loadHits_types_known mods h0 (hsub h0 h1)
    have hfwd : (knownModificationEvents.map fun t =>
        dget (countModificationTypes ((intervalHits (loadHits mods) rec).filter
          fun h => decide (h.strand = "+"))) t).sum
        = ((intervalHits (loadHits mods) rec).filter
            fun h => decide (h.strand = "+")).length := by
      have hmap : (knownModificationEvents.map fun t =>
          dget (countModificationTypes ((intervalHits (loadHits mods) rec).filter
            fun h => decide (h.strand = "+"))) t)
          = knownModificationEvents.map fun t =>
            (((intervalHits (loadHits mods) rec).filter
              fun h => decide (h.strand = "+")).map Hit.type).count t :=
        List.map_congr_left fun t _ => dget_countModificationTypes _ t
      rw [hmap, sum_counts_eq_length knownModificationEvents hnd _ (htypes _),
        List.length_map]
    have hrev : (knownModificationEvents.map fun t =>
        dget (countModificationTypes ((intervalHits (loadHits mods) rec).filter
          fun h => decide (h.strand = "-"))) t).sum
        = ((intervalHits (loadHits mods) rec).filter
            fun h => decide (h.strand = "-")).length := by
      have hmap : (knownModificationEvents.map fun t =>
          dget (countModificationTypes ((intervalHits (loadHits mods) rec).filter
            fun h => decide (h.strand = "-"))) t)
          = knownModificationEvents.map fun t =>
            (((intervalHits (loadHits mods) rec).filter
              fun h => decide (h.strand = "-")).map Hit.type).count t :=
        List.map_congr_left fun t _ => dget_countModificationTypes _ t
      rw [hmap, sum_counts_eq_length knownModificationEvents hnd _ (htypes _),
        List.length_map]
    rw [hfwd, hrev]
    exact length_filter_strand_split _ fun h hm => hstrand h (hsub h hm)

theorem c10_strand_counting_witness :
    (∀ h ∈ loadHits [mkRec "c" 5 5 "+" "m6A" "", mkRec "c" 7 7 "-" "m4C" ""],
        Hit.strand h = "+" ∨ Hit.strand h = "-")
    ∧ ((∀ h : Hit,
        h ∈ (intervalHits
            (loadHits [mkRec "c" 5 5 "+" "m6A" "", mkRec "c" 7 7 "-" "m4C" ""])
            (mkRec "c" 1 10 "." "region" "")).filter
          (fun h => decide (h.strand = "+"))
          ↔ h ∈ intervalHits
              (loadHits [mkRec "c" 5 5 "+" "m6A" "", mkRec "c" 7 7 "-" "m4C" ""])
              (mkRec "c" 1 10 "." "region" "") ∧ h.strand = "+")
      ∧ (∀ h : Hit,
        h ∈ (intervalHits
            (loadHits [mkRec "c" 5 5 "+" "m6A" "", mkRec "c" 7 7 "-" "m4C" ""])
            (mkRec "c" 1 10 "." "region" "")).filter
          (fun h => decide (h.strand = "-"))
          ↔ h ∈ intervalHits
              (loadHits [mkRec "c" 5 5 "+" "m6A" "", mkRec "c" 7 7 "-" "m4C" ""])
              (mkRec "c" 1 10 "." "region" "") ∧ h.strand = "-")
      ∧ (knownModificationEvents.map fun t =>
          dget (countModificationTypes ((intervalHits
            (loadHits [mkRec "c" 5 5 "+" "m6A" "", mkRec "c" 7 7 "-" "m4C" ""])
            (mkRec "c" 1 10 "." "region" "")).filter
              fun h => decide (h.strand = "+"))) t).sum
        + (knownModificationEvents.map fun t =>
          dget (countModificationTypes ((intervalHits
            (loadHits [mkRec "c" 5 5 "+" "m6A" "", mkRec "c" 7 7 "-" "m4C" ""])
            (mkRec "c" 1 10 "." "region" "")).filter
              fun h => decide (h.strand = "-"))) t).sum
        = (intervalHits
            (loadHits [mkRec "c" 5 5 "+" "m6A" "", mkRec "c" 7 7 "-" "m4C" ""])
            (mkRec "c" 1 10 "." "region" "")).length) :=
  ⟨by decide,
   c10_strand_counting [mkRec "c" 5 5 "+" "m6A" "", mkRec "c" 7 7 "-" "m4C" ""]
     (mkRec "c" 1 10 "." "region" "") (by decide)⟩
